import Mathlib

/-!
Shallow embedding of the macdev manifest/lock reconciliation core
(src/environment.rs and src/manifest.rs) and proofs of the specified
properties.

Strings are modelled as lists of characters; the Rust HashMaps are
modelled as association lists whose operations (lookup, insert with
replacement, erase) reproduce the map semantics of HashMap.

The operations are modelled as pure state transitions on the persisted
manifest documents. External collaborator calls (`homebrew::*`) that only
query are passed in as oracle functions; calls whose success the operation
needs (install, filesystem writes) are modelled on their success path, while
an operation's own bail-outs are modelled as `Option` failures.
-/

namespace Macdev

/-- Strings of the Rust source, modelled as character lists. -/
abbrev Str := List Char

/-- The persisted `"*"` version marker (unconstrained version). -/
def star : Str := ['*']

/-- Lookup in an association map (HashMap::get). -/
def mfind {α : Type} : List (Str × α) → Str → Option α
  | [], _ => none
  | (k, v) :: m, key => if k = key then some v else mfind m key

/-- Remove every binding of a key (HashMap::remove on unique-keyed maps). -/
def merase {α : Type} : List (Str × α) → Str → List (Str × α)
  | [], _ => []
  | (k, v) :: m, key => if k = key then merase m key else (k, v) :: merase m key

/-- Insert, replacing any previous binding (HashMap::insert). -/
def minsert {α : Type} (m : List (Str × α)) (k : Str) (v : α) : List (Str × α) :=
  (k, v) :: merase m k

/-- Key membership (HashMap::contains_key). -/
def mcontains {α : Type} (m : List (Str × α)) (k : Str) : Bool :=
  (mfind m k).isSome

/-- Model of `spec.split('@').next().unwrap()`: the text before the first `'@'`
(the whole string when no `'@'` occurs). -/
def strBase : Str → Str
  | [] => []
  | c :: cs => if c = '@' then [] else c :: strBase cs

/-- Model of `spec.contains('@')`. -/
def hasAt : Str → Bool
  | [] => false
  | c :: cs => if c = '@' then true else hasAt cs

/-- Model of `spec.rfind('@')`: index of the rightmost `'@'`, if any. -/
def rfindAt : Str → Option Nat
  | [] => none
  | c :: cs =>
    match rfindAt cs with
    | some i => some (i + 1)
    | none => if c = '@' then some 0 else none

/-- Model of `parse_package_spec` (environment.rs, lines 13–21): split at the
rightmost `'@'`; the first component rejoins name and version. -/
def parse_package_spec (spec : Str) : Str × Option Str :=
  match rfindAt spec with
  | some pos => (spec.take pos ++ '@' :: spec.drop (pos + 1), some (spec.drop (pos + 1)))
  | none => (spec, none)

/-- In-memory manifest: five sections, as in the `Manifest` struct
(manifest.rs, lines 15–31). -/
structure Manifest where
  packages : List (Str × Str)
  impure : List (Str × Bool)
  casks : List (Str × Bool)
  gc : List (Str × Str)
  taps : List (Str × Bool)
deriving DecidableEq, Repr

/-- Model of `Manifest::default()`. -/
def Manifest.empty : Manifest :=
  { packages := [], impure := [], casks := [], gc := [], taps := [] }

/-- Serialized manifest document: a section marked
`skip_serializing_if = "HashMap::is_empty"` is absent (`none`) when empty;
`packages` carries no skip attribute and is always written. -/
structure ManifestDoc where
  packages : Option (List (Str × Str))
  impure : Option (List (Str × Bool))
  casks : Option (List (Str × Bool))
  gc : Option (List (Str × Str))
  taps : Option (List (Str × Bool))
deriving DecidableEq, Repr

/-- Serialize one skippable section. -/
def writeSection {α : Type} (s : List (Str × α)) : Option (List (Str × α)) :=
  if s.isEmpty then none else some s

/-- Model of `Manifest::save_global` (manifest.rs, lines 70–83): the document written
for the global manifest, all five sections. -/
def Manifest.save_global (m : Manifest) : ManifestDoc :=
  { packages := some m.packages
    impure := writeSection m.impure
    casks := writeSection m.casks
    gc := writeSection m.gc
    taps := writeSection m.taps }

/-- Model of `Manifest::save` (manifest.rs, lines 92–112): the document written for the
local manifest — only the packages section is kept, every other section of the
serialized value is empty. -/
def Manifest.save (m : Manifest) : ManifestDoc :=
  Manifest.save_global
    { packages := m.packages, impure := [], casks := [], gc := [], taps := [] }

/-- Deserialization (`toml::from_str` with `serde(default)`): a missing
section deserializes to the empty map. -/
def loadManifest (d : ManifestDoc) : Manifest :=
  { packages := d.packages.getD []
    impure := d.impure.getD []
    casks := d.casks.getD []
    gc := d.gc.getD []
    taps := d.taps.getD [] }

/-- Model of `Manifest::add_package`. -/
def Manifest.add_package (m : Manifest) (name version : Str) : Manifest :=
  { m with packages := minsert m.packages name version }

/-- Model of `Manifest::add_impure`. -/
def Manifest.add_impure (m : Manifest) (name : Str) : Manifest :=
  { m with impure := minsert m.impure name true }

/-- Model of `Manifest::add_cask`. -/
def Manifest.add_cask (m : Manifest) (name : Str) : Manifest :=
  { m with casks := minsert m.casks name true }

/-- Model of `Manifest::remove_cask`. -/
def Manifest.remove_cask (m : Manifest) (name : Str) : Manifest :=
  { m with casks := merase m.casks name }

/-- Model of `Manifest::add_tap`. -/
def Manifest.add_tap (m : Manifest) (name : Str) : Manifest :=
  { m with taps := minsert m.taps name true }

/-- Model of `Manifest::remove_tap`. -/
def Manifest.remove_tap (m : Manifest) (name : Str) : Manifest :=
  { m with taps := merase m.taps name }

/-- Model of `Manifest::remove_package` (manifest.rs, lines 144–149): deletes the name
from packages, impure and casks. -/
def Manifest.remove_package (m : Manifest) (name : Str) : Manifest :=
  { m with
    packages := merase m.packages name
    impure := merase m.impure name
    casks := merase m.casks name }

/-- Version spec reconstruction used by sync, install, upgrade, profile
rebuild and lock generation: `if version == "*" { name } else { name@version }`. -/
def specOf (name version : Str) : Str :=
  if version = star then name else name ++ '@' :: version

/-- The gc insertion of `remove` for a pure package (environment.rs, lines
184–192): key is the base name, or `base@version` for a pinned version. -/
def gcInsertPure (base ver : Str) (g : Manifest) : Manifest :=
  let key := if ver = star then base else base ++ '@' :: ver
  { g with gc := minsert g.gc key ver }

/-- The gc insertion of `remove` for an impure package (environment.rs, lines
152–160): key is the original argument when versioned, else the base name. -/
def gcInsertImpure (package : Str) (g : Manifest) : Manifest :=
  let key := if hasAt package then package else strBase package
  { g with gc := minsert g.gc key star }

/-- The impure branch of `remove` (environment.rs, lines 147–162):
`impure.remove(package).is_some() || impure.remove(package_base).is_some()`,
with `||` short-circuiting, then the gc insertion when something was removed. -/
def removeImpureGlobal (package : Str) (g : Manifest) : Manifest :=
  if mcontains g.impure package then
    gcInsertImpure package { g with impure := merase g.impure package }
  else if mcontains g.impure (strBase package) then
    gcInsertImpure package { g with impure := merase g.impure (strBase package) }
  else g

/-- The pure-branch global mutation of `remove` (environment.rs, lines
180–193): `packages.remove(package).or_else(remove(package_base))`, then the
gc insertion when a version was found. -/
def removePureGlobal (package : Str) (g : Manifest) : Manifest :=
  match mfind g.packages package with
  | some ver =>
    gcInsertPure (strBase package) ver { g with packages := merase g.packages package }
  | none =>
    match mfind g.packages (strBase package) with
    | some ver =>
      gcInsertPure (strBase package) ver
        { g with packages := merase g.packages (strBase package) }
    | none => g

/-- The local-manifest mutation of `remove` (environment.rs, lines 164–178):
delete the resolved key from the local manifest if present there, and persist
(only the packages section survives the save). -/
def removeLocal (package : Str) (lc : Option Manifest) : Option Manifest :=
  let pkg_key :=
    if lc.elim false (fun m => mcontains m.packages package) then package
    else strBase package
  match lc with
  | some lm =>
    if mcontains lm.packages pkg_key then
      some (loadManifest (lm.remove_package pkg_key).save)
    else some lm
  | none => none

/-- Model of `remove` (environment.rs, lines 108–202): scope disambiguation, then the
move of the resolved entry into gc. Returns `none` on the
"not tracked globally" bail-out. No uninstall is ever invoked. -/
def removeOp (package : Str) (lc : Option Manifest) (g : Manifest) :
    Option (Option Manifest × Manifest) :=
  let base := strBase package
  let exact_pure := mcontains g.packages package
  let exact_impure := mcontains g.impure package
  let base_pure := mcontains g.packages base
  let base_impure := mcontains g.impure base
  let is_impure :=
    if hasAt package then
      exact_impure || (!exact_pure && !base_pure && base_impure)
    else
      exact_impure || (!exact_pure && base_impure)
  if !exact_pure && !exact_impure && !base_pure && !base_impure then none
  else if is_impure then some (lc, removeImpureGlobal package g)
  else some (removeLocal package lc, removePureGlobal package g)

/-- The dependency-isolation condition of `add` (environment.rs, lines
82–97): a dependency is unlinked when neither the dependency itself nor its
base name appears in packages, impure or gc. -/
def depNotTracked (g : Manifest) (dep : Str) : Bool :=
  let dep_base := strBase dep
  let in_packages := mcontains g.packages dep || mcontains g.packages dep_base
  let in_impure := mcontains g.impure dep || mcontains g.impure dep_base
  let in_gc := mcontains g.gc dep || mcontains g.gc dep_base
  !in_packages && !in_impure && !in_gc

/-- The dependencies unlinked by `add`, in order. Unlink errors are ignored
(`let _ = homebrew::unlink_package(&dep)`), so the unlink outcome does not
influence the state. -/
def unlinkList (g : Manifest) (deps : List Str) : List Str :=
  deps.filter (depNotTracked g)

/-- Result of a successful `add`. -/
structure AddOutcome where
  localSt : Option Manifest
  globalSt : Manifest
  unlinked : List Str
deriving DecidableEq, Repr

/-- Model of `add` (environment.rs, lines 24–105). `deps` is the flat dependency list
reported by the external manager for the installed package; `lc` is the local
manifest when one exists. Returns `none` on the "no manifest found" bail-out
for pure adds. -/
def addOp (spec : Str) (impureFlag : Bool) (deps : List Str)
    (lc : Option Manifest) (g : Manifest) : Option AddOutcome :=
  if !impureFlag && lc.isNone then none
  else
    let package := (parse_package_spec spec).1
    let version := (parse_package_spec spec).2
    let name := strBase package
    let g1 := { g with gc := merase g.gc name }
    if impureFlag then
      let g2 := g1.add_impure name
      some { localSt := lc, globalSt := g2, unlinked := unlinkList g2 deps }
    else
      match lc with
      | none => none
      | some lm =>
        let ver := version.getD star
        let local2 := lm.add_package name ver
        let g2 := g1.add_package name ver
        some { localSt := some (loadManifest local2.save), globalSt := g2
               unlinked := unlinkList g2 deps }

/-- Result of a `gc` run. -/
structure GcOutcome where
  globalSt : Manifest
  attempted : List Str
deriving DecidableEq, Repr

/-- Model of `gc` (environment.rs, lines 333–385). `uok name` tells whether the
external `uninstall_package(name)` call succeeds; every gc key is attempted,
and only the successfully uninstalled ones are evicted. -/
def gcOp (uok : Str → Bool) (g : Manifest) : GcOutcome :=
  if g.gc.isEmpty then { globalSt := g, attempted := [] }
  else
    let names := g.gc.map (fun p => p.1)
    let to_remove := names.filter uok
    { globalSt := { g with gc := to_remove.foldl (fun acc n => merase acc n) g.gc }
      attempted := names }

/-- A mutating call issued by `sync`. -/
inductive SyncCall where
  | tapCall (name : Str)
  | addPure (spec : Str)
  | addImpure (name : Str)
deriving DecidableEq, Repr

/-- Model of `sync` (environment.rs, lines 205–285): the mutating calls performed.
`isTapped`/`isInstalled` are the collaborator queries (`none` models an `Err`
result, which — like `Ok(false)` — triggers the mutating call). -/
def syncOp (isTapped : Str → Option Bool) (isInstalled : Str → Option Bool)
    (lc : Option Manifest) (g : Manifest) : List SyncCall :=
  let tapCalls :=
    (g.taps.map (fun p => p.1)).filterMap (fun t =>
      match isTapped t with
      | some true => none
      | _ => some (SyncCall.tapCall t))
  let pureCalls :=
    match lc with
    | some lm =>
      lm.packages.filterMap (fun p =>
        if mcontains g.packages p.1 then none
        else some (SyncCall.addPure (specOf p.1 p.2)))
    | none => []
  let impureCalls :=
    (g.impure.map (fun p => p.1)).filterMap (fun n =>
      match isInstalled n with
      | some true => none
      | _ => some (SyncCall.addImpure n))
  tapCalls ++ pureCalls ++ impureCalls

/-- Lock-file entry. -/
structure LockedPackage where
  version : Str
  formula : Str
deriving DecidableEq, Repr

/-- Lock document (manifest.rs, lines 257–265). -/
structure Lock where
  packages : List (Str × LockedPackage)
  dependencies : List (Str × LockedPackage)
  impureSec : List (Str × LockedPackage)
deriving DecidableEq, Repr

/-- The spec `install` passes to `ensure_package` for one local package
(environment.rs, lines 539–560): the locked formula when the lock has an
entry, else the manifest spec. -/
def installSpec (lock : Option Lock) (name version : Str) : Str :=
  match lock with
  | some l =>
    match mfind l.packages name with
    | some lp => lp.formula
    | none => specOf name version
  | none => specOf name version

/-- Result of an `install` run. -/
structure InstallOutcome where
  installed : List Str
  globalSt : Manifest
  lockGenerated : Bool
deriving DecidableEq, Repr

/-- Model of `install` (environment.rs, lines 522–586): install every local pure
package (lock entry preferred), record each into the global manifest, and
generate a lock only when none existed. -/
def installOp (lock : Option Lock) (lm g : Manifest) : InstallOutcome :=
  let step := fun (acc : List Str × Manifest) (p : Str × Str) =>
    (acc.1 ++ [installSpec lock p.1 p.2], acc.2.add_package p.1 p.2)
  let r := lm.packages.foldl step ([], g)
  { installed := r.1, globalSt := r.2, lockGenerated := lock.isNone }

/-- The package is tracked (exactly or by base name) in the pure section. -/
def trackedPure (g : Manifest) (package : Str) : Bool :=
  mcontains g.packages package || mcontains g.packages (strBase package)

/-- The package is tracked (exactly or by base name) in the impure section. -/
def trackedImpure (g : Manifest) (package : Str) : Bool :=
  mcontains g.impure package || mcontains g.impure (strBase package)

/-! ### Concrete fixtures used by witnesses and counterexamples -/

/-- A global manifest tracking pure `python` at version `3.12`, the state
`add("python@3.12")` produces. -/
def gPy : Manifest :=
  { Manifest.empty with packages := [("python".toList, "3.12".toList)] }

/-- The matching local manifest. -/
def lPy : Manifest :=
  { Manifest.empty with packages := [("python".toList, "3.12".toList)] }

/-- A global manifest tracking pure `python@3.14` under its versioned key. -/
def gPy14 : Manifest :=
  { Manifest.empty with packages := [("python@3.14".toList, "3.14".toList)] }

/-- The outcome of `add("node@lts@20", pure)` on empty manifests. -/
def nodeOutcome : AddOutcome :=
  { localSt := some { Manifest.empty with packages := [("node".toList, "20".toList)] }
    globalSt := { Manifest.empty with packages := [("node".toList, "20".toList)] }
    unlinked := [] }

/-- The outcome of `add("foo", impure)` with one untracked dependency. -/
def fooOutcome : AddOutcome :=
  { localSt := none
    globalSt := { Manifest.empty with impure := [("foo".toList, true)] }
    unlinked := ["bar".toList] }

/-- The global manifest after `remove("python")` on `gPy`. -/
def gPyRemoved : Manifest :=
  { Manifest.empty with gc := [("python@3.12".toList, "3.12".toList)] }

/-- A locked package entry for the install witness. -/
def pyLocked : LockedPackage :=
  { version := "3.11.7".toList, formula := "python@3.11.7".toList }

/-- A lock document pinning `python` for the install witness. -/
def pyLock : Lock :=
  { packages := [("python".toList, pyLocked)], dependencies := [], impureSec := [] }

/-- A fully-synced fixture: local manifest for the sync witness. -/
def lSync : Manifest :=
  { Manifest.empty with packages := [("rust".toList, star)] }

/-- A fully-synced fixture: global manifest for the sync witness. -/
def gSync : Manifest :=
  { Manifest.empty with
    packages := [("rust".toList, star)]
    impure := [("git".toList, true)]
    taps := [("homebrew/cask".toList, true)] }

/-! ### Helper lemmas -/

theorem mfind_merase {α : Type} (m : List (Str × α)) (k key : Str) :
    mfind (merase m k) key = if key = k then none else mfind m key := by
  induction m with
  | nil => simp [merase, mfind]
  | cons p m ih =>
    obtain ⟨k', v⟩ := p
    by_cases h1 : k' = k
    · subst h1
      by_cases h2 : key = k'
      · subst h2
        simp [merase, mfind, ih]
      · have h2' : ¬ k' = key := fun hh => h2 hh.symm
        simp [merase, mfind, h2, h2', ih]
    · by_cases h2 : k' = key
      · subst h2
        have h1' : ¬ k' = k := h1
        simp [merase, mfind, h1', ih]
      · simp [merase, mfind, h1, h2, ih]

theorem mfind_minsert {α : Type} (m : List (Str × α)) (k key : Str) (v : α) :
    mfind (minsert m k v) key = if key = k then some v else mfind m key := by
  by_cases h : k = key
  · subst h; simp [minsert, mfind]
  · have h' : ¬ key = k := fun hh => h hh.symm
    simp [minsert, mfind, h, h', mfind_merase]

theorem mcontains_eq_false_iff {α : Type} (m : List (Str × α)) (k : Str) :
    mcontains m k = false ↔ mfind m k = none := by
  unfold mcontains
  cases mfind m k <;> simp

theorem mcontains_eq_true_iff {α : Type} (m : List (Str × α)) (k : Str) :
    mcontains m k = true ↔ ∃ v, mfind m k = some v := by
  unfold mcontains
  cases mfind m k <;> simp

theorem hasAt_eq_false_iff (s : Str) : hasAt s = false ↔ '@' ∉ s := by
  induction s with
  | nil => simp [hasAt]
  | cons c cs ih =>
    by_cases h : c = '@'
    · subst h; simp [hasAt]
    · have h' : ¬ '@' = c := fun hh => h hh.symm
      simp [hasAt, h, h', ih]

theorem strBase_not_mem (s : Str) : '@' ∉ strBase s := by
  induction s with
  | nil => simp [strBase]
  | cons c cs ih =>
    by_cases h : c = '@'
    · simp [strBase, h]
    · have h' : ¬ '@' = c := fun hh => h hh.symm
      simp [strBase, h, h', ih]

theorem strBase_of_not_mem (s : Str) (h : '@' ∉ s) : strBase s = s := by
  induction s with
  | nil => rfl
  | cons c cs ih =>
    simp at h
    have hc : ¬ c = '@' := fun hh => h.1 hh.symm
    simp [strBase, hc, ih h.2]

theorem strBase_append_at (a t : Str) (h : '@' ∉ a) :
    strBase (a ++ '@' :: t) = a := by
  induction a with
  | nil => simp [strBase]
  | cons c cs ih =>
    simp at h
    have hc : ¬ c = '@' := fun hh => h.1 hh.symm
    simp [strBase, hc, ih h.2]

theorem strBase_idem (s : Str) : strBase (strBase s) = strBase s :=
  strBase_of_not_mem _ (strBase_not_mem s)

theorem rfindAt_eq_none_iff (s : Str) : rfindAt s = none ↔ '@' ∉ s := by
  induction s with
  | nil => simp [rfindAt]
  | cons c cs ih =>
    unfold rfindAt
    cases hcs : rfindAt cs with
    | some i =>
      have hin : '@' ∈ cs := by
        by_contra hnot
        have h0 := ih.mpr hnot
        rw [h0] at hcs
        exact Option.noConfusion hcs
      have hin2 : '@' ∈ c :: cs := List.mem_cons_of_mem _ hin
      simp [hin2]
    | none =>
      by_cases h : c = '@'
      · simp [h]
      · have h' : ¬ '@' = c := fun hh => h hh.symm
        have hcs' := ih.mp hcs
        simp [h, h', hcs']

theorem rfindAt_spec (s : Str) (pos : Nat) (h : rfindAt s = some pos) :
    s.take pos ++ '@' :: s.drop (pos + 1) = s ∧ '@' ∉ s.drop (pos + 1) := by
  induction s generalizing pos with
  | nil => simp [rfindAt] at h
  | cons c cs ih =>
    unfold rfindAt at h
    cases hcs : rfindAt cs with
    | some i =>
      rw [hcs] at h
      simp at h
      subst h
      obtain ⟨h1, h2⟩ := ih i hcs
      constructor
      · simpa [List.take, List.drop] using h1
      · simpa [List.drop] using h2
    | none =>
      rw [hcs] at h
      by_cases hc : c = '@'
      · simp [hc] at h
        subst h
        subst hc
        refine ⟨by simp, ?_⟩
        simpa using (rfindAt_eq_none_iff cs).mp hcs
      · simp [hc] at h

theorem parse_fst (spec : Str) : (parse_package_spec spec).1 = spec := by
  unfold parse_package_spec
  cases h : rfindAt spec with
  | none => rfl
  | some pos => simpa using (rfindAt_spec spec pos h).1

theorem writeSection_getD {α : Type} (s : List (Str × α)) :
    (writeSection s).getD [] = s := by
  unfold writeSection
  cases s <;> simp

theorem mfind_eq_none_of_not_mem_keys {α : Type} (m : List (Str × α)) (k : Str)
    (h : k ∉ m.map (fun p => p.1)) : mfind m k = none := by
  induction m with
  | nil => rfl
  | cons p m ih =>
    obtain ⟨k', v⟩ := p
    simp only [List.map_cons, List.mem_cons, not_or] at h
    have hk : ¬ k' = k := fun hh => h.1 hh.symm
    simp [mfind, hk, ih h.2]

theorem mfind_foldl_merase {α : Type} (L : List Str) (m : List (Str × α)) (k : Str) :
    mfind (L.foldl (fun acc n => merase acc n) m) k =
      if k ∈ L then none else mfind m k := by
  induction L generalizing m with
  | nil => simp
  | cons a L ih =>
    simp only [List.foldl_cons]
    rw [ih]
    by_cases h : k ∈ L
    · simp [h]
    · by_cases h2 : k = a
      · subst h2
        simp [h, mfind_merase]
      · simp [h, h2, mfind_merase]

theorem foldl_install_step (lock : Option Lock) (ps : List (Str × Str))
    (acc : List Str) (g : Manifest) :
    (ps.foldl
        (fun (a : List Str × Manifest) (p : Str × Str) =>
          (a.1 ++ [installSpec lock p.1 p.2], a.2.add_package p.1 p.2))
        (acc, g)).1 =
      acc ++ ps.map (fun p => installSpec lock p.1 p.2) := by
  induction ps generalizing acc g with
  | nil => simp
  | cons p ps ih =>
    simp only [List.foldl_cons, List.map_cons]
    rw [ih]
    simp

theorem filterMap_eq_nil_of_none {α β : Type} (l : List α) (f : α → Option β)
    (h : ∀ a ∈ l, f a = none) : l.filterMap f = [] := by
  induction l with
  | nil => rfl
  | cons a l ih =>
    rw [List.filterMap_cons, h a (List.mem_cons_self a l)]
    exact ih (fun b hb => h b (List.mem_cons_of_mem _ hb))

theorem count_specOf_le_one (name v : Str) (hn : '@' ∉ name) (hv : '@' ∉ v) :
    (specOf name v).count '@' ≤ 1 := by
  unfold specOf
  by_cases h : v = star
  · simp [h, List.count_eq_zero.mpr hn]
  · rw [if_neg h]
    simp [List.count_append, List.count_cons, List.count_eq_zero.mpr hn,
      List.count_eq_zero.mpr hv]

theorem removePureGlobal_eq_of_exact (package : Str) (g : Manifest) (ver : Str)
    (hm : mfind g.packages package = some ver) :
    removePureGlobal package g =
      gcInsertPure (strBase package) ver
        { g with packages := merase g.packages package } := by
  unfold removePureGlobal
  rw [hm]

theorem removePureGlobal_eq_of_base (package : Str) (g : Manifest) (ver : Str)
    (hm : mfind g.packages package = none)
    (hb : mfind g.packages (strBase package) = some ver) :
    removePureGlobal package g =
      gcInsertPure (strBase package) ver
        { g with packages := merase g.packages (strBase package) } := by
  unfold removePureGlobal
  rw [hm, hb]

theorem gcInsertPure_gc_find (base ver : Str) (g : Manifest) :
    mfind (gcInsertPure base ver g).gc
      (if ver = star then base else base ++ '@' :: ver) = some ver := by
  simp [gcInsertPure, mfind_minsert]

theorem strBase_gcPureKey (package ver : Str) :
    strBase (if ver = star then strBase package else strBase package ++ '@' :: ver) =
      strBase package := by
  by_cases hv : ver = star
  · simp [hv, strBase_idem]
  · rw [if_neg hv]
    exact strBase_append_at _ _ (strBase_not_mem package)

theorem removePureGlobal_spec (package : Str) (g : Manifest)
    (hp : trackedPure g package = true) :
    (∃ k v, mfind (removePureGlobal package g).gc k = some v ∧
      strBase k = strBase package) ∧
    mfind (removePureGlobal package g).packages package = none ∧
    (removePureGlobal package g).impure = g.impure := by
  cases hm : mfind g.packages package with
  | some ver =>
    rw [removePureGlobal_eq_of_exact package g ver hm]
    refine ⟨⟨_, ver, gcInsertPure_gc_find _ _ _, strBase_gcPureKey package ver⟩, ?_, rfl⟩
    simp [gcInsertPure, mfind_merase]
  | none =>
    cases hb : mfind g.packages (strBase package) with
    | some ver =>
      rw [removePureGlobal_eq_of_base package g ver hm hb]
      refine ⟨⟨_, ver, gcInsertPure_gc_find _ _ _, strBase_gcPureKey package ver⟩, ?_, rfl⟩
      simp [gcInsertPure, mfind_merase, hm]
    | none =>
      exfalso
      unfold trackedPure mcontains at hp
      rw [hm, hb] at hp
      simp at hp

theorem removeImpureGlobal_spec (package : Str) (g : Manifest)
    (hi : trackedImpure g package = true) :
    (∃ k v, mfind (removeImpureGlobal package g).gc k = some v ∧
      strBase k = strBase package) ∧
    mfind (removeImpureGlobal package g).impure package = none ∧
    (removeImpureGlobal package g).packages = g.packages := by
  have hkey : strBase (if hasAt package then package else strBase package) =
      strBase package := by
    by_cases hh : hasAt package
    · simp [hh]
    · simp [hh, strBase_idem]
  by_cases he : mcontains g.impure package = true
  · rw [show removeImpureGlobal package g =
        gcInsertImpure package { g with impure := merase g.impure package } from by
      unfold removeImpureGlobal
      rw [if_pos he]]
    refine ⟨⟨_, star, ?_, hkey⟩, ?_, rfl⟩
    · simp [gcInsertImpure, mfind_minsert]
    · simp [gcInsertImpure, mfind_merase]
  · have he2 : mcontains g.impure package = false := by
      cases hx : mcontains g.impure package
      · rfl
      · exact absurd hx he
    have hbase : mcontains g.impure (strBase package) = true := by
      unfold trackedImpure at hi
      rw [he2] at hi
      simpa using hi
    rw [show removeImpureGlobal package g =
        gcInsertImpure package
          { g with impure := merase g.impure (strBase package) } from by
      unfold removeImpureGlobal
      rw [if_neg (by simp [he2]), if_pos hbase]]
    refine ⟨⟨_, star, ?_, hkey⟩, ?_, rfl⟩
    · simp [gcInsertImpure, mfind_minsert]
    · have hmp : mfind g.impure package = none := (mcontains_eq_false_iff _ _).mp he2
      simp [gcInsertImpure, mfind_merase, hmp]

/-! ### Claim theorems -/

/-- C4: `gc` attempts to uninstall every name in the gc section, and the
saved gc section afterwards holds exactly the entries whose uninstall failed
— successfully uninstalled names are evicted, failed ones keep their value
for the next run. -/
theorem gc_attempts_all_and_keeps_failures (uok : Str → Bool) (g : Manifest) :
    (gcOp uok g).attempted = g.gc.map (fun p => p.1) ∧
    ∀ n, mfind (gcOp uok g).globalSt.gc n =
      if uok n then none else mfind g.gc n := by
  unfold gcOp
  by_cases hE : g.gc.isEmpty
  · have hnil : g.gc = [] := by
      cases hgc : g.gc
      · rfl
      · rw [hgc] at hE
        simp [List.isEmpty] at hE
    simp only [hE, if_true]
    refine ⟨by simp [hnil], ?_⟩
    intro n
    simp [hnil, mfind]
  · rw [if_neg hE]
    refine ⟨rfl, ?_⟩
    intro n
    simp only
    rw [mfind_foldl_merase]
    by_cases hu : uok n
    · by_cases hmem : n ∈ g.gc.map (fun p => p.1)
      · simp [List.mem_filter, hmem, hu]
      · have : mfind g.gc n = none := mfind_eq_none_of_not_mem_keys _ _ hmem
        simp [List.mem_filter, hmem, hu, this]
    · have : n ∉ (g.gc.map (fun p => p.1)).filter uok := by
        intro hmem
        exact hu (List.mem_filter.mp hmem).2
      simp [this, hu]

/-- C3: `install` derives each installed spec from the lock when the lock has
an entry for the package (the locked formula string), falls back to the
manifest `name`/`version` spec when the lock lacks the entry or there is no
lock, and generates a lock afterwards exactly when none existed before. -/
theorem install_prefers_lock_and_never_overwrites (lock : Option Lock) (lm g : Manifest) :
    (installOp lock lm g).installed =
      lm.packages.map (fun p => installSpec lock p.1 p.2) ∧
    (∀ l name version lp, lock = some l → mfind l.packages name = some lp →
      installSpec lock name version = lp.formula) ∧
    (∀ l name version, lock = some l → mfind l.packages name = none →
      installSpec lock name version = specOf name version) ∧
    (∀ name version, installSpec none name version = specOf name version) ∧
    ((installOp lock lm g).lockGenerated = true ↔ lock = none) := by
  refine ⟨?_, ?_, ?_, fun name version => rfl, ?_⟩
  · unfold installOp
    simp only
    rw [foldl_install_step]
    simp
  · intro l name version lp hl hfind
    subst hl
    simp [installSpec, hfind]
  · intro l name version hl hfind
    subst hl
    simp [installSpec, hfind]
  · unfold installOp
    cases lock <;> simp

/-- Witness for C3: a lock pinning `python` to formula `python@3.11.7` is
preferred over the manifest version. -/
theorem install_prefers_lock_witness :
    mfind pyLock.packages "python".toList = some pyLocked ∧
    installSpec (some pyLock) "python".toList "3.11".toList = pyLocked.formula :=
  ⟨by decide,
    (install_prefers_lock_and_never_overwrites (some pyLock) Manifest.empty
        Manifest.empty).2.1
      pyLock "python".toList "3.11".toList pyLocked rfl (by decide)⟩

/-- C7: `parse_package_spec` never fails; with no `'@'` it returns the input
with no version; otherwise the version is the substring after the rightmost
`'@'` (possibly empty) and the first component reproduces the input exactly;
the four documented examples hold. -/
theorem parse_package_spec_correct :
    (∀ s : Str, (parse_package_spec s).1 = s) ∧
    (∀ s : Str, '@' ∉ s → parse_package_spec s = (s, none)) ∧
    (∀ s : Str, '@' ∈ s →
      ∃ v, (parse_package_spec s).2 = some v ∧ '@' ∉ v ∧
        ∃ pre, s = pre ++ '@' :: v) ∧
    parse_package_spec "rust".toList = ("rust".toList, none) ∧
    parse_package_spec "python@3.11".toList = ("python@3.11".toList, some "3.11".toList) ∧
    parse_package_spec "node@lts@20".toList = ("node@lts@20".toList, some "20".toList) ∧
    parse_package_spec "package@".toList = ("package@".toList, some "".toList) := by
  refine ⟨parse_fst, ?_, ?_, by decide, by decide, by decide, by decide⟩
  · intro s hs
    unfold parse_package_spec
    rw [(rfindAt_eq_none_iff s).mpr hs]
  · intro s hs
    cases hfind : rfindAt s with
    | none => exact absurd ((rfindAt_eq_none_iff s).mp hfind) (by simpa using hs)
    | some pos =>
      refine ⟨s.drop (pos + 1), ?_, (rfindAt_spec s pos hfind).2, s.take pos, ?_⟩
      · unfold parse_package_spec
        rw [hfind]
      · exact ((rfindAt_spec s pos hfind).1).symm

/-- Witness for C7 at a concrete versioned input. -/
theorem parse_package_spec_correct_witness :
    '@' ∈ "python@3.11".toList ∧
    (∃ v, (parse_package_spec "python@3.11".toList).2 = some v ∧ '@' ∉ v ∧
      ∃ pre, "python@3.11".toList = pre ++ '@' :: v) :=
  ⟨by decide, parse_package_spec_correct.2.2.1 "python@3.11".toList (by decide)⟩

/-- C8: saving the local manifest and loading it back keeps exactly the
packages section; impure, casks, gc and taps come back empty no matter what
they held in memory. -/
theorem save_local_keeps_only_packages (m : Manifest) :
    loadManifest m.save =
      { packages := m.packages, impure := [], casks := [], gc := [], taps := [] } := by
  rfl

/-- C10: the manifest carries a fifth persisted section `casks`: the global
save/load round-trip restores it (written only when non-empty),
`add_cask`/`remove_cask` mutate it, and `remove_package` deletes the name
from casks as well as from packages and impure. -/
theorem casks_are_fifth_section (m : Manifest) (n : Str) :
    loadManifest m.save_global = m ∧
    (m.save_global).casks = (if m.casks.isEmpty then none else some m.casks) ∧
    (m.add_cask n).casks = minsert m.casks n true ∧
    (m.remove_cask n).casks = merase m.casks n ∧
    (m.remove_package n).packages = merase m.packages n ∧
    (m.remove_package n).impure = merase m.impure n ∧
    (m.remove_package n).casks = merase m.casks n := by
  refine ⟨?_, rfl, rfl, rfl, rfl, rfl, rfl⟩
  cases m
  simp [loadManifest, Manifest.save_global, writeSection_getD]

/-- C6: `sync` on a fully-synced environment — every tap already tapped,
every local pure package present in the global packages section, every
global impure package reported installed — performs zero mutating calls. -/
theorem sync_idempotent (isTapped isInstalled : Str → Option Bool)
    (lc : Option Manifest) (g : Manifest)
    (hTaps : ∀ p ∈ g.taps, isTapped p.1 = some true)
    (hPure : ∀ lm, lc = some lm → ∀ p ∈ lm.packages, mcontains g.packages p.1 = true)
    (hImp : ∀ p ∈ g.impure, isInstalled p.1 = some true) :
    syncOp isTapped isInstalled lc g = [] := by
  have h1 : (g.taps.map (fun p => p.1)).filterMap (fun t =>
      match isTapped t with
      | some true => none
      | _ => some (SyncCall.tapCall t)) = [] := by
    apply filterMap_eq_nil_of_none
    intro t ht
    obtain ⟨p, hp, hpt⟩ := List.mem_map.mp ht
    rw [← hpt, hTaps p hp]
  have h3 : (g.impure.map (fun p => p.1)).filterMap (fun n =>
      match isInstalled n with
      | some true => none
      | _ => some (SyncCall.addImpure n)) = [] := by
    apply filterMap_eq_nil_of_none
    intro n hn
    obtain ⟨p, hp, hpn⟩ := List.mem_map.mp hn
    rw [← hpn, hImp p hp]
  cases hlc : lc with
  | none =>
    unfold syncOp
    simp only [h1, h3]
    rfl
  | some lm =>
    have h2 : lm.packages.filterMap (fun p =>
        if mcontains g.packages p.1 then none
        else some (SyncCall.addPure (specOf p.1 p.2))) = [] := by
      apply filterMap_eq_nil_of_none
      intro p hp
      rw [hPure lm hlc p hp]
      rfl
    unfold syncOp
    simp only [h1, h2, h3]
    rfl

/-- Witness for C6 at a concrete fully-synced fixture. -/
theorem sync_idempotent_witness :
    syncOp (fun _ => some true) (fun _ => some true) (some lSync) gSync = [] := by
  refine sync_idempotent _ _ _ _ ?_ ?_ ?_
  · intro p hp
    rfl
  · intro lm hlm p hp
    injection hlm with hh
    subst hh
    have hp2 : p = ("rust".toList, star) := by simpa [lSync] using hp
    subst hp2
    decide
  · intro p hp
    rfl

/-- C5 (amended): during `add`, a listed dependency is unlinked exactly when
neither the dependency's full name nor its base name is present in any of the
packages, impure or gc sections of the (post-mutation) global manifest;
unlink failures are ignored by construction and never abort the add. -/
theorem add_unlink_iff_untracked (spec : Str) (impureFlag : Bool)
    (deps : List Str) (lc : Option Manifest) (g : Manifest) (o : AddOutcome)
    (h : addOp spec impureFlag deps lc g = some o) (dep : Str) :
    dep ∈ o.unlinked ↔ dep ∈ deps ∧ depNotTracked o.globalSt dep = true := by
  simp only [addOp] at h
  split at h
  · exact absurd h (by simp)
  · split at h
    · obtain rfl := Option.some.inj h
      simp [unlinkList, List.mem_filter]
    · split at h
      · exact absurd h (by simp)
      · obtain rfl := Option.some.inj h
        simp [unlinkList, List.mem_filter]

/-- Witness for C5: an untracked dependency of an impure add is unlinked. -/
theorem add_unlink_iff_untracked_witness :
    addOp "foo".toList true ["bar".toList] none Manifest.empty = some fooOutcome ∧
    ("bar".toList ∈ fooOutcome.unlinked ↔
      "bar".toList ∈ ["bar".toList] ∧
        depNotTracked fooOutcome.globalSt "bar".toList = true) :=
  ⟨by decide,
    add_unlink_iff_untracked "foo".toList true ["bar".toList] none Manifest.empty
      fooOutcome (by decide) "bar".toList⟩

/-- Counterexample to C5 as stated: the dependency `python@3.14` is tracked
under its full name (so the code does not unlink it), yet its base name
`python` is present in no section — the claimed
"unlinked iff base name untracked" fails. -/
theorem add_unlink_base_name_counterexample :
    (addOp "foo".toList true ["python@3.14".toList] none gPy14).map
      (fun o => (o.unlinked,
        mcontains o.globalSt.packages "python".toList,
        mcontains o.globalSt.impure "python".toList,
        mcontains o.globalSt.gc "python".toList))
      = some ([], false, false, false) := by decide

/-- C9: a pure add of a spec holding two or more `'@'` characters records the
key as the text before the first `'@'` paired with the version after the last
`'@'` in both manifests, and the `key@version` reconstruction used by
sync/install/lock generation/profile rebuild yields a different identifier
than the spec originally added. -/
theorem add_pure_drops_middle_segment (spec : Str) (deps : List Str)
    (lm g : Manifest) (o : AddOutcome)
    (hc : 2 ≤ spec.count '@')
    (h : addOp spec false deps (some lm) g = some o) :
    ∃ v, (parse_package_spec spec).2 = some v ∧
      mfind o.globalSt.packages (strBase spec) = some v ∧
      (∃ l2, o.localSt = some l2 ∧ mfind l2.packages (strBase spec) = some v) ∧
      specOf (strBase spec) v ≠ spec := by
  have hmem : '@' ∈ spec := by
    by_contra hnot
    rw [List.count_eq_zero.mpr hnot] at hc
    omega
  cases hfind : rfindAt spec with
  | none => exact absurd ((rfindAt_eq_none_iff spec).mp hfind) (by simpa using hmem)
  | some pos =>
    have hparse2 : (parse_package_spec spec).2 = some (spec.drop (pos + 1)) := by
      unfold parse_package_spec
      rw [hfind]
    simp only [addOp] at h
    rw [parse_fst spec, hparse2] at h
    simp only [Bool.not_false, Option.isNone_some, Bool.and_false, Option.getD_some] at h
    split at h
    · exact absurd h (by simp)
    · obtain rfl := Option.some.inj h
      refine ⟨spec.drop (pos + 1), hparse2, ?_, ?_, ?_⟩
      · simp [Manifest.add_package, mfind_minsert]
      · refine ⟨_, rfl, ?_⟩
        simp [loadManifest, Manifest.save, Manifest.save_global,
          Manifest.add_package, mfind_minsert]
      · intro heq
        have h1 : (specOf (strBase spec) (spec.drop (pos + 1))).count '@' ≤ 1 :=
          count_specOf_le_one _ _ (strBase_not_mem spec)
            ((rfindAt_spec spec pos hfind).2)
        rw [heq] at h1
        omega

/-- Witness for C9 at `node@lts@20`. -/
theorem add_pure_drops_middle_witness :
    2 ≤ ("node@lts@20".toList).count '@' ∧
    (∃ v, (parse_package_spec "node@lts@20".toList).2 = some v ∧
      mfind nodeOutcome.globalSt.packages (strBase "node@lts@20".toList) = some v ∧
      (∃ l2, nodeOutcome.localSt = some l2 ∧
        mfind l2.packages (strBase "node@lts@20".toList) = some v) ∧
      specOf (strBase "node@lts@20".toList) v ≠ "node@lts@20".toList) :=
  ⟨by decide,
    add_pure_drops_middle_segment "node@lts@20".toList [] Manifest.empty
      Manifest.empty nodeOutcome (by decide) (by decide)⟩

/-- C1 (amended): whenever `remove(package)` succeeds on a global manifest
that does not track the package in both the packages and impure sections
simultaneously, the saved global manifest holds a gc entry whose base name
equals the package's base name (keyed `base` or `base@version`, so the
argument string itself need not be a gc key), and the package is absent from
both the packages and impure sections; nothing is uninstalled (the operation
issues no uninstall call by construction). -/
theorem remove_moves_entry_to_gc (package : Str) (lc : Option Manifest)
    (g : Manifest) (lc2 : Option Manifest) (g2 : Manifest)
    (hnd : ¬(trackedPure g package = true ∧ trackedImpure g package = true))
    (h : removeOp package lc g = some (lc2, g2)) :
    (∃ k v, mfind g2.gc k = some v ∧ strBase k = strBase package) ∧
    mfind g2.packages package = none ∧
    mfind g2.impure package = none := by
  by_cases hti : trackedImpure g package = true
  · have htp : trackedPure g package = false := by
      cases htp2 : trackedPure g package
      · rfl
      · exact absurd ⟨htp2, hti⟩ hnd
    have ha : mcontains g.packages package = false := by
      cases hx : mcontains g.packages package
      · rfl
      · exfalso
        unfold trackedPure at htp
        rw [hx] at htp
        simp at htp
    have hb : mcontains g.packages (strBase package) = false := by
      cases hx : mcontains g.packages (strBase package)
      · rfl
      · exfalso
        unfold trackedPure at htp
        rw [hx] at htp
        simp at htp
    have hred : g2 = removeImpureGlobal package g := by
      cases he : mcontains g.impure package with
      | true =>
        simp [removeOp, ha, hb, he] at h
        exact h.2.symm
      | false =>
        have hc : mcontains g.impure (strBase package) = true := by
          unfold trackedImpure at hti
          rw [he] at hti
          simpa using hti
        simp [removeOp, ha, hb, he, hc] at h
        exact h.2.symm
    subst hred
    obtain ⟨hgc, himp, hpkg⟩ := removeImpureGlobal_spec package g hti
    refine ⟨hgc, ?_, himp⟩
    rw [hpkg]
    exact (mcontains_eq_false_iff _ _).mp ha
  · have hti2 : trackedImpure g package = false := by
      cases hx : trackedImpure g package
      · rfl
      · exact absurd hx hti
    have he : mcontains g.impure package = false := by
      cases hx : mcontains g.impure package
      · rfl
      · exfalso
        unfold trackedImpure at hti2
        rw [hx] at hti2
        simp at hti2
    have hc : mcontains g.impure (strBase package) = false := by
      cases hx : mcontains g.impure (strBase package)
      · rfl
      · exfalso
        unfold trackedImpure at hti2
        rw [hx] at hti2
        simp at hti2
    have hpure : trackedPure g package = true ∧ g2 = removePureGlobal package g := by
      cases ha : mcontains g.packages package with
      | true =>
        simp [removeOp, ha, he, hc] at h
        exact ⟨by simp [trackedPure, ha], h.2.symm⟩
      | false =>
        cases hb : mcontains g.packages (strBase package) with
        | true =>
          simp [removeOp, ha, hb, he, hc] at h
          exact ⟨by simp [trackedPure, hb], h.2.symm⟩
        | false =>
          exfalso
          simp [removeOp, ha, hb, he, hc] at h
    obtain ⟨htp, hred⟩ := hpure
    subst hred
    obtain ⟨hgc, hpkg, himp⟩ := removePureGlobal_spec package g htp
    refine ⟨hgc, hpkg, ?_⟩
    rw [himp]
    exact (mcontains_eq_false_iff _ _).mp he

/-- Witness for C1 at `remove("python")` on a manifest tracking pure
`python` at `3.12`. -/
theorem remove_moves_entry_to_gc_witness :
    (¬(trackedPure gPy "python".toList = true ∧
        trackedImpure gPy "python".toList = true)) ∧
    removeOp "python".toList none gPy = some (none, gPyRemoved) ∧
    ((∃ k v, mfind gPyRemoved.gc k = some v ∧
        strBase k = strBase "python".toList) ∧
      mfind gPyRemoved.packages "python".toList = none ∧
      mfind gPyRemoved.impure "python".toList = none) :=
  ⟨by decide, by decide,
    remove_moves_entry_to_gc "python".toList none gPy none gPyRemoved
      (by decide) (by decide)⟩

/-- Counterexample to C1 as stated: `remove("python")` succeeds on a global
manifest with `packages = {python: 3.12}`, yet afterwards `python` is not a
key of gc — the entry was stored under `python@3.12` instead. -/
theorem remove_gc_key_counterexample :
    (removeOp "python".toList none gPy).map
        (fun r => (mfind r.2.gc "python".toList,
          mfind r.2.gc "python@3.12".toList,
          mfind r.2.packages "python".toList))
      = some (none, some "3.12".toList, none) := by decide

/-- C2: `remove("python@3.12")` stores the gc key `python@3.12`, but a
subsequent `add("python@3.12")` evicts only the base name `python` from gc —
so the stale entry survives while `python` is re-added to packages, leaving
the package tracked in gc and packages at once (and a later `gc()` run would
uninstall the active package). -/
theorem add_after_remove_keeps_stale_gc :
    ((removeOp "python@3.12".toList (some lPy) gPy).bind
        (fun r => addOp "python@3.12".toList false [] r.1 r.2)).map
        (fun o => (mfind o.globalSt.gc "python@3.12".toList,
          mfind o.globalSt.packages "python".toList))
      = some (some "3.12".toList, some "3.12".toList) := by decide

end Macdev
